import Mathlib

/-!
Shallow embedding of `api/storage/elasticsearch/elasticsearch.go` from the
finala repository: the three read operations `GetSummary`, `GetExecutions`
and `GetResources` of `StorageManager`, together with the document-store
responses they consume.  The store itself (olivere/elastic client) is an
external collaborator; it is represented by response-valued functions, and
— where a claim depends on the store honouring the aggregation contract —
by an explicit response constructed from a list of event documents.
-/

namespace Finala

/-- Payload sub-fields of a decoded `storage.Summary` document
(`Data.Status`, `Data.ErrorMessage`), as read by `GetSummary`. -/
structure SummaryData where
  Status : String
  ErrorMessage : String
deriving DecidableEq

/-- A decoded `service_status` document (`storage.Summary`), as produced by
`searchResult.Each` in `GetSummary`. -/
structure Summary where
  ResourceName : String
  EventTime : Int
  Data : SummaryData
deriving DecidableEq

/-- One row of the summary mapping (`storage.CollectorsSummary`): latest
status fields plus the cost/count enrichment.  `TotalSpent` (a Go
`float64`) is modelled as a rational. -/
structure CollectorsSummary where
  ResourceName : String
  EventTime : Int
  Status : String
  ErrorMessage : String
  TotalSpent : Rat
  ResourceCount : Int
deriving DecidableEq

/-- Caller-supplied filters: a Go `map[string]string`, modelled as an
association list with unique keys. -/
abbrev Filters := List (String × String)

/-- Reading `m[k]` from a Go map. -/
def lookupKey {α : Type} : List (String × α) → String → Option α
  | [], _ => none
  | (k, v) :: rest, key => if k = key then some v else lookupKey rest key

/-- Go `delete(m, k)`. -/
def eraseKey {α : Type} : List (String × α) → String → List (String × α)
  | [], _ => []
  | (k, v) :: rest, key =>
      if k = key then eraseKey rest key else (k, v) :: eraseKey rest key

/-- Go `m[k] = v`: replace the value when the key is present, append the
entry otherwise. -/
def mapSet {α : Type} : List (String × α) → String → α → List (String × α)
  | [], key, v => [(key, v)]
  | (k, w) :: rest, key, v =>
      if k = key then (k, v) :: rest else (k, w) :: mapSet rest key v

/-- The summary row built from one decoded status document
(`elasticsearch.go` lines 171-176); cost fields start at their zero
defaults. -/
def mergeRow (row : Summary) : CollectorsSummary :=
  { ResourceName := row.ResourceName
    EventTime := row.EventTime
    Status := row.Data.Status
    ErrorMessage := row.Data.ErrorMessage
    TotalSpent := 0
    ResourceCount := 0 }

/-- One iteration of the merge loop of `GetSummary` (lines 162-177): keep
the incumbent when the new document is strictly older, otherwise delete it
and store the new row. -/
def mergeStep (acc : List (String × CollectorsSummary)) (row : Summary) :
    List (String × CollectorsSummary) :=
  match lookupKey acc row.ResourceName with
  | some val =>
      if row.EventTime < val.EventTime then acc
      else mapSet (eraseKey acc row.ResourceName) row.ResourceName (mergeRow row)
  | none => mapSet acc row.ResourceName (mergeRow row)

/-- The full merge over the decoded status documents, in hit order. -/
def mergeSummary (rows : List Summary) : List (String × CollectorsSummary) :=
  rows.foldl mergeStep []

/-- Response of the secondary aggregation query issued by
`getResourceSummaryDetails`.  `sumValue = none` models a response whose
`sum` aggregation (or its `value` field) is absent; `sumValue = some none`
models a present but unparseable value (`strconv.ParseFloat` fails and its
error is discarded, yielding 0); `sumValue = some (some q)` a value parsing
to `q`.  `totalHits` is `searchResult.Hits.TotalHits.Value`. -/
structure SecondaryResp where
  sumValue : Option (Option Rat)
  totalHits : Int
deriving DecidableEq

/-- Extraction of (totalSpent, resourceCount) from a successful secondary
response (`elasticsearch.go` lines 227-236): both stay zero unless the
aggregation value is present; the count is taken whenever the value field
exists, even if it fails to parse. -/
def parseSecondary (r : SecondaryResp) : Rat × Int :=
  match r.sumValue with
  | none => (0, 0)
  | some v => (v.getD 0, r.totalHits)

/-- The cost/count update applied to a summary row when the secondary query
succeeds (lines 187-190). -/
def updateRow (row : CollectorsSummary) (resp : SecondaryResp) : CollectorsSummary :=
  { row with
      TotalSpent := (parseSecondary resp).1
      ResourceCount := (parseSecondary resp).2 }

/-- The document store as seen by `GetSummary`: the primary status search
(per execution id, each hit decoding to a `Summary` or failing) and the
secondary aggregation search (per execution id and filter map). -/
structure SummaryStore where
  primary : String → Except Unit (List (Option Summary))
  secondary : String → Filters → Except Unit SecondaryResp

/-- One iteration of the enrichment loop of `GetSummary` (lines 179-192):
the caller's filters map is mutated with the resource name, the secondary
query is issued, and on success the row is replaced by its enriched copy. -/
def summaryDetailsStep (st : SummaryStore) (eid : String)
    (acc : List (String × CollectorsSummary) × Filters)
    (entry : String × CollectorsSummary) :
    List (String × CollectorsSummary) × Filters :=
  let flt := mapSet acc.2 "ResourceName" entry.1
  match st.secondary eid flt with
  | .error _ => (acc.1, flt)
  | .ok resp => (mapSet acc.1 entry.1 (updateRow entry.2 resp), flt)

/-- `StorageManager.GetSummary`.  Returns the summary mapping, the caller's
filters map as left after the call (Go maps are passed by reference, and
line 180 writes into it), and whether a non-nil error was returned. -/
def getSummaryRun (st : SummaryStore) (eid : String) (filters : Filters) :
    List (String × CollectorsSummary) × Filters × Bool :=
  match st.primary eid with
  | .error _ => ([], filters, true)
  | .ok hits =>
      let merged := mergeSummary (hits.filterMap id)
      let out := merged.foldl (summaryDetailsStep st eid) (merged, filters)
      (out.1, out.2, false)

/-- An execution record (`storage.Executions`); `Time` is the unix-seconds
argument of `time.Unix`. -/
structure Executions where
  ID : String
  Name : String
  Time : Int
deriving DecidableEq

/-- Go `strings.Split(s, "_")` on the character list of `s`. -/
def splitUnderscore : List Char → List (List Char)
  | [] => [[]]
  | c :: rest =>
      match splitUnderscore rest with
      | [] => [[c]]
      | h :: t => if c = '_' then [] :: h :: t else (c :: h) :: t

/-- Digit accumulation used by `parseInt64`: every character must be a
decimal digit. -/
def digitsVal (cs : List Char) : Option Nat :=
  cs.foldl
    (fun acc c =>
      match acc with
      | none => none
      | some n => if c.isDigit then some (n * 10 + (c.toNat - 48)) else none)
    (some 0)

/-- Go `strconv.ParseInt(s, 10, 64)`: optional sign, at least one decimal
digit, value within the signed 64-bit range; `none` models a non-nil parse
error. -/
def parseInt64 (cs : List Char) : Option Int :=
  let signDigits : Int × List Char :=
    match cs with
    | '+' :: rest => (1, rest)
    | '-' :: rest => (-1, rest)
    | rest => (1, rest)
  if signDigits.2.isEmpty then none
  else
    match digitsVal signDigits.2 with
    | none => none
    | some n =>
        let v : Int := signDigits.1 * (n : Int)
        if -(2 ^ 63) ≤ v ∧ v ≤ 2 ^ 63 - 1 then some v else none

/-- Decoding of one execution identifier (lines 274-293): split on `_`,
rejoin all but the last segment as the name, parse the last segment as the
timestamp; a parse failure skips the record. -/
def decodeExecutionID (eid : String) : Option Executions :=
  let data := splitUnderscore eid.toList
  let executionName := (List.intercalate ['_'] data.dropLast).asString
  match parseInt64 ((data.getLast?).getD []) with
  | none => none
  | some t => some { ID := eid, Name := executionName, Time := t }

/-- One outer bucket of the `orderedExecutionID` aggregation; its
`ExecutionIDDesc` sub-aggregation decodes to the bucket keys, or fails
(`none`), in which case the zero value — no buckets — is iterated. -/
structure OuterBucket where
  executionIDDesc : Option (List String)

/-- The document store as seen by `GetExecutions`: the response to the
nested aggregation query built for a given limit.  `Except.error` is a
failed search; `.ok none` a response without the `orderedExecutionID`
key. -/
structure ExecsStore where
  search : Int → Except Unit (Option (List OuterBucket))

/-- `StorageManager.GetExecutions`: returns the record list and whether a
non-nil error was returned (the function always returns a nil error). -/
def getExecutionsRun (st : ExecsStore) (queryLimit : Int) :
    List Executions × Bool :=
  match st.search queryLimit with
  | .error _ => ([], false)
  | .ok none => ([], false)
  | .ok (some buckets) =>
      (buckets.foldl
        (fun acc b =>
          acc ++ (b.executionIDDesc.getD []).filterMap decodeExecutionID)
        [], false)

/-- An event document as persisted in the index (§3 of the spec); used to
model the store-side aggregation consumed by `GetExecutions`. -/
structure Doc where
  ResourceName : String
  ExecutionID : String
  EventType : String
  EventTime : Int
deriving DecidableEq

/-- Distinct execution ids among `service_status` documents. -/
def statusExecIDs (docs : List Doc) : List String :=
  (((docs.filter fun d => d.EventType == "service_status").map
    Doc.ExecutionID)).dedup

/-- Maximum `EventTime` over the `service_status` documents carrying the
given execution id (the `MaxEventTime` sub-aggregation). -/
def maxTimeOf (docs : List Doc) (eid : String) : Int :=
  ((((docs.filter fun d =>
      d.EventType == "service_status" && d.ExecutionID == eid)).map
    Doc.EventTime).max?).getD 0

/-- Insertion into a list kept in descending order of `key`. -/
def insertDescBy (key : String → Int) (x : String) : List String → List String
  | [] => [x]
  | y :: ys => if key y ≤ key x then x :: y :: ys else y :: insertDescBy key x ys

/-- Sorting in descending order of `key`. -/
def sortDescBy (key : String → Int) (l : List String) : List String :=
  l.foldr (insertDescBy key) []

/-- Modelled from the spec: the response of the external document store to
the nested aggregation query of `GetExecutions` (§4.3/§6 — the store is an
assumed collaborator, not repository code): one outer filter bucket whose
terms sub-aggregation holds the distinct `ExecutionID` keys of
`service_status` documents, ordered descending by their maximum
`EventTime` and capped at `limit`. -/
def esExecutionsResponse (docs : List Doc) (limit : Nat) : List OuterBucket :=
  [{ executionIDDesc :=
      some ((sortDescBy (maxTimeOf docs) (statusExecIDs docs)).take limit) }]

/-- A raw resource document: an open-ended field map. -/
abbrev RawDoc := List (String × String)

/-- The document store as seen by `GetResources`: hits for a given
resource type and execution id, each either decoding to an open field map
or failing (`none`). -/
structure ResourcesStore where
  search : String → String → Except Unit (List (Option RawDoc))

/-- `StorageManager.GetResources` (lines 300-331): on a search error the
call fails; otherwise every hit is appended — a decode failure is only
logged, so the hit still contributes `rowData`, which is then the empty
map. -/
def getResourcesRun (st : ResourcesStore) (resourceType eid : String) :
    List RawDoc × Bool :=
  match st.search resourceType eid with
  | .error _ => ([], true)
  | .ok hits => (hits.map (fun h => h.getD []), false)

/-- The filters map as left after the enrichment loop. -/
def filtersAfter (f : Filters) (entries : List (String × CollectorsSummary)) :
    Filters :=
  entries.foldl (fun g e => mapSet g "ResourceName" e.1) f

/-- The enrichment loop with the filters threading normalised away: each
entry's secondary query sees the original filters with `ResourceName` set
to that entry's key. -/
def phase2Pure (st : SummaryStore) (eid : String) (f : Filters) :
    List (String × CollectorsSummary) → List (String × CollectorsSummary) →
      List (String × CollectorsSummary)
  | [], acc => acc
  | e :: es, acc =>
      phase2Pure st eid f es
        (match st.secondary eid (mapSet f "ResourceName" e.1) with
         | .error _ => acc
         | .ok resp => mapSet acc e.1 (updateRow e.2 resp))

/-- Invariant of the merge loop over the processed documents `rows`: every
processed resource name is present in the accumulator, and every
accumulated row carries the fields of a processed document with that name
whose event time is maximal among the processed documents of that name.
The cost fields are still at their zero defaults. -/
def MergedInv (rows : List Summary)
    (acc : List (String × CollectorsSummary)) : Prop :=
  (∀ d ∈ rows, ∃ r, lookupKey acc d.ResourceName = some r) ∧
  (∀ name row, lookupKey acc name = some row →
    row.ResourceName = name ∧ row.TotalSpent = 0 ∧ row.ResourceCount = 0 ∧
    ∃ d ∈ rows, d.ResourceName = name ∧ row.EventTime = d.EventTime ∧
      row.Status = d.Data.Status ∧ row.ErrorMessage = d.Data.ErrorMessage ∧
      ∀ d2 ∈ rows, d2.ResourceName = name → d2.EventTime ≤ row.EventTime)

/-! Concrete stores used to instantiate the claim theorems. -/

/-- Three status documents for resource `r1` with event times 10, 30, 20. -/
def demoLatestHits : List (Option Summary) :=
  [some ⟨"r1", 10, ⟨"s10", "e10"⟩⟩,
   some ⟨"r1", 30, ⟨"s30", "e30"⟩⟩,
   some ⟨"r1", 20, ⟨"s20", "e20"⟩⟩]

/-- Store returning the [10, 30, 20] documents, with a well-formed
secondary aggregation response. -/
def demoLatestStore : SummaryStore :=
  { primary := fun _ => .ok demoLatestHits
    secondary := fun _ _ => .ok ⟨some (some 5), 2⟩ }

/-- The row `GetSummary` produces for `r1` against `demoLatestStore`. -/
def demoLatestRow : CollectorsSummary := ⟨"r1", 30, "s30", "e30", 5, 2⟩

/-- Status documents for two resources `a` and `b`. -/
def demoPartialHits : List (Option Summary) :=
  [some ⟨"a", 3, ⟨"sa", "ma"⟩⟩, some ⟨"b", 9, ⟨"sb", "mb"⟩⟩]

/-- Store whose secondary query fails exactly for resource name `a`. -/
def demoPartialStore : SummaryStore :=
  { primary := fun _ => .ok demoPartialHits
    secondary := fun _ flt =>
      if lookupKey flt "ResourceName" = some "a" then .error ()
      else .ok ⟨some (some 7), 3⟩ }

/-- Store whose secondary response carries an unparseable aggregation
value. -/
def demoMalformedStore : SummaryStore :=
  { primary := fun _ => .ok [some ⟨"r", 1, ⟨"s", "m"⟩⟩]
    secondary := fun _ _ => .ok ⟨some none, 4⟩ }

/-- Store with one resource, used to observe the filters-map mutation. -/
def demoMutationStore : SummaryStore :=
  { primary := fun _ => .ok [some ⟨"r", 1, ⟨"s", ""⟩⟩]
    secondary := fun _ _ => .ok ⟨some (some 2), 1⟩ }

/-- An incumbent summary row with event time 5 and status `A`. -/
def demoTieVal : CollectorsSummary := ⟨"r", 5, "A", "ea", 0, 0⟩

/-- A status document with the same event time 5 and status `B`. -/
def demoTieRow : Summary := ⟨"r", 5, ⟨"B", "eb"⟩⟩

/-! Association-list lemmas: how `lookupKey` interacts with `mapSet` and
`eraseKey`, mirroring the Go map operations. -/

theorem lookupKey_mapSet_self {α : Type} (m : List (String × α)) (k : String)
    (v : α) : lookupKey (mapSet m k v) k = some v := by
  induction m with
  | nil => simp [mapSet, lookupKey]
  | cons e rest ih =>
      obtain ⟨k1, w⟩ := e
      by_cases h : k1 = k
      · simp [mapSet, h, lookupKey]
      · simp [mapSet, h, lookupKey, ih]

theorem lookupKey_mapSet_ne {α : Type} (m : List (String × α)) {n k : String}
    (v : α) (h : n ≠ k) : lookupKey (mapSet m k v) n = lookupKey m n := by
  induction m with
  | nil => simp [mapSet, lookupKey, Ne.symm h]
  | cons e rest ih =>
      obtain ⟨k1, w⟩ := e
      by_cases hk : k1 = k
      · subst hk
        have hn : ¬k1 = n := fun hn => h hn.symm
        simp [mapSet, lookupKey, hn]
      · simp [mapSet, hk, lookupKey, ih]

theorem lookupKey_eraseKey_self {α : Type} (m : List (String × α))
    (k : String) : lookupKey (eraseKey m k) k = none := by
  induction m with
  | nil => simp [eraseKey, lookupKey]
  | cons e rest ih =>
      obtain ⟨k1, w⟩ := e
      by_cases h : k1 = k
      · simp [eraseKey, h, ih]
      · simp [eraseKey, h, lookupKey, ih]

theorem lookupKey_eraseKey_ne {α : Type} (m : List (String × α)) {n k : String}
    (h : n ≠ k) : lookupKey (eraseKey m k) n = lookupKey m n := by
  induction m with
  | nil => simp [eraseKey]
  | cons e rest ih =>
      obtain ⟨k1, w⟩ := e
      by_cases hk : k1 = k
      · subst hk
        have hn : ¬k1 = n := fun hn => h hn.symm
        simp [eraseKey, lookupKey, hn, ih]
      · simp [eraseKey, hk, lookupKey, ih]

theorem mapSet_mapSet {α : Type} (m : List (String × α)) (k : String)
    (a b : α) : mapSet (mapSet m k a) k b = mapSet m k b := by
  induction m with
  | nil => simp [mapSet]
  | cons e rest ih =>
      obtain ⟨k1, w⟩ := e
      by_cases h : k1 = k
      · simp [mapSet, h]
      · simp [mapSet, h, ih]

theorem lookupKey_eq_none {α : Type} {m : List (String × α)} {k : String} :
    lookupKey m k = none ↔ k ∉ m.map Prod.fst := by
  induction m with
  | nil => simp [lookupKey]
  | cons e rest ih =>
      obtain ⟨k1, w⟩ := e
      by_cases h : k1 = k
      · simp [lookupKey, h]
      · have hne : ¬k = k1 := fun hk => h hk.symm
        simp [lookupKey, h, ih, hne]

theorem mapSet_absent {α : Type} {m : List (String × α)} {k : String}
    (v : α) (h : lookupKey m k = none) : mapSet m k v = m ++ [(k, v)] := by
  induction m with
  | nil => simp [mapSet]
  | cons e rest ih =>
      obtain ⟨k1, w⟩ := e
      by_cases hk : k1 = k
      · simp [lookupKey, hk] at h
      · simp [lookupKey, hk] at h
        simp [mapSet, hk, ih h]

theorem keys_eraseKey {α : Type} (m : List (String × α)) (k : String) :
    (eraseKey m k).map Prod.fst = (m.map Prod.fst).filter (fun x => x != k) := by
  induction m with
  | nil => simp [eraseKey]
  | cons e rest ih =>
      obtain ⟨k1, w⟩ := e
      by_cases h : k1 = k
      · subst h
        simp [eraseKey, ih, List.filter_cons]
      · have hb : (k1 != k) = true := bne_iff_ne.mpr h
        simp [eraseKey, h, ih, List.filter_cons, hb]

theorem keys_nodup_append_singleton {l : List String} {k : String}
    (h : l.Nodup) (hk : k ∉ l) : (l ++ [k]).Nodup := by
  simp [List.nodup_append, h, List.disjoint_singleton, hk]

theorem mergeStep_keys_nodup {acc : List (String × CollectorsSummary)}
    (row : Summary) (h : (acc.map Prod.fst).Nodup) :
    (((mergeStep acc row).map Prod.fst)).Nodup := by
  cases hl : lookupKey acc row.ResourceName with
  | none =>
      simp only [mergeStep, hl]
      rw [mapSet_absent _ hl, List.map_append]
      exact keys_nodup_append_singleton h (lookupKey_eq_none.mp hl)
  | some val =>
      simp only [mergeStep, hl]
      by_cases hlt : row.EventTime < val.EventTime
      · simpa [hlt] using h
      · rw [if_neg hlt,
          mapSet_absent _ (lookupKey_eraseKey_self acc row.ResourceName),
          List.map_append]
        refine keys_nodup_append_singleton ?_ ?_
        · rw [keys_eraseKey]; exact h.filter _
        · exact lookupKey_eq_none.mp (lookupKey_eraseKey_self acc row.ResourceName)

theorem mergeSummary_keys_nodup (rows : List Summary) :
    (((mergeSummary rows).map Prod.fst)).Nodup := by
  have main : ∀ (rs : List Summary) (acc : List (String × CollectorsSummary)),
      (acc.map Prod.fst).Nodup → ((rs.foldl mergeStep acc).map Prod.fst).Nodup := by
    intro rs
    induction rs with
    | nil => intro acc h; simpa using h
    | cons r rest ih =>
        intro acc h
        exact ih (mergeStep acc r) (mergeStep_keys_nodup r h)
  exact main rows [] (by simp)

/-! Normalising the enrichment loop of `GetSummary`: the filters map
threaded through the loop always ends up as the original map with the
`ResourceName` key overwritten, so the loop is equivalent to the pure
response-driven recursion `phase2Pure`. -/

theorem mapSet_filtersAfter (es : List (String × CollectorsSummary)) :
    ∀ (g : Filters) (r : String),
      mapSet (filtersAfter g es) "ResourceName" r = mapSet g "ResourceName" r := by
  induction es with
  | nil => intro g r; rfl
  | cons e rest ih =>
      intro g r
      show mapSet (filtersAfter (mapSet g "ResourceName" e.1) rest)
        "ResourceName" r = _
      rw [ih (mapSet g "ResourceName" e.1) r, mapSet_mapSet]

theorem foldl_details_eq (st : SummaryStore) (eid : String) :
    ∀ (entries acc : List (String × CollectorsSummary)) (g f : Filters),
      (∀ r, mapSet g "ResourceName" r = mapSet f "ResourceName" r) →
      entries.foldl (summaryDetailsStep st eid) (acc, g) =
        (phase2Pure st eid f entries acc, filtersAfter g entries) := by
  intro entries
  induction entries with
  | nil => intro acc g f hgf; rfl
  | cons e es ih =>
      intro acc g f hgf
      have hstep : summaryDetailsStep st eid (acc, g) e =
          ((match st.secondary eid (mapSet f "ResourceName" e.1) with
            | .error _ => acc
            | .ok resp => mapSet acc e.1 (updateRow e.2 resp)),
           mapSet f "ResourceName" e.1) := by
        simp only [summaryDetailsStep, hgf e.1]
        cases st.secondary eid (mapSet f "ResourceName" e.1) <;> rfl
      show es.foldl (summaryDetailsStep st eid)
          (summaryDetailsStep st eid (acc, g) e) = _
      rw [hstep]
      rw [ih _ (mapSet f "ResourceName" e.1) f
        (fun r => mapSet_mapSet f "ResourceName" e.1 r)]
      show (_, filtersAfter (mapSet f "ResourceName" e.1) es) =
        (_, filtersAfter (mapSet g "ResourceName" e.1) es)
      rw [hgf e.1]
      simp only [phase2Pure]

/-- On a successful primary query, `GetSummary` computes the merge, then
the normalised enrichment loop, and returns a nil error. -/
theorem getSummaryRun_ok (st : SummaryStore) (eid : String) (f : Filters)
    (hits : List (Option Summary)) (h : st.primary eid = .ok hits) :
    getSummaryRun st eid f =
      (phase2Pure st eid f (mergeSummary (hits.filterMap id))
        (mergeSummary (hits.filterMap id)),
       filtersAfter f (mergeSummary (hits.filterMap id)), false) := by
  simp only [getSummaryRun, h]
  rw [foldl_details_eq st eid _ _ f f (fun r => rfl)]

theorem phase2Pure_lookup (st : SummaryStore) (eid : String) (f : Filters) :
    ∀ (entries acc : List (String × CollectorsSummary)) (name : String),
      (entries.map Prod.fst).Nodup →
      lookupKey (phase2Pure st eid f entries acc) name =
        match lookupKey entries name with
        | none => lookupKey acc name
        | some row =>
            match st.secondary eid (mapSet f "ResourceName" name) with
            | .error _ => lookupKey acc name
            | .ok resp => some (updateRow row resp) := by
  intro entries
  induction entries with
  | nil => intro acc name h; rfl
  | cons e es ih =>
      obtain ⟨k, v⟩ := e
      intro acc name hnd
      rw [List.map_cons] at hnd
      have hknotin : k ∉ es.map Prod.fst := (List.nodup_cons.mp hnd).1
      have hnd' : (es.map Prod.fst).Nodup := (List.nodup_cons.mp hnd).2
      by_cases hname : k = name
      · subst hname
        have hes : lookupKey es k = none := lookupKey_eq_none.mpr hknotin
        have hlk : lookupKey ((k, v) :: es) k = some v := by simp [lookupKey]
        cases hsec : st.secondary eid (mapSet f "ResourceName" k) with
        | error u =>
            simp only [phase2Pure, hsec]
            rw [ih acc k hnd', hes, hlk, hsec]
        | ok resp =>
            simp only [phase2Pure, hsec]
            rw [ih _ k hnd', hes, hlk, hsec]
            exact lookupKey_mapSet_self acc k (updateRow v resp)
      · have hne : name ≠ k := fun hh => hname hh.symm
        have hlk : lookupKey ((k, v) :: es) name = lookupKey es name := by
          simp [lookupKey, hname]
        cases hsec : st.secondary eid (mapSet f "ResourceName" k) with
        | error u =>
            simp only [phase2Pure, hsec]
            rw [ih acc name hnd', hlk]
        | ok resp =>
            simp only [phase2Pure, hsec]
            rw [ih _ name hnd', hlk]
            simp only [lookupKey_mapSet_ne acc (updateRow v resp) hne]

/-- Per-name characterisation of the result of `GetSummary` on a
successful primary query: a name absent from the merge stays absent; a
merged row is returned unchanged when its secondary query fails and
enriched with the parsed cost/count when it succeeds. -/
theorem getSummary_result_lookup (st : SummaryStore) (eid : String)
    (f : Filters) (hits : List (Option Summary))
    (h : st.primary eid = .ok hits) (name : String) :
    lookupKey (getSummaryRun st eid f).1 name =
      match lookupKey (mergeSummary (hits.filterMap id)) name with
      | none => none
      | some row =>
          match st.secondary eid (mapSet f "ResourceName" name) with
          | .error _ => some row
          | .ok resp => some (updateRow row resp) := by
  rw [getSummaryRun_ok st eid f hits h]
  rw [phase2Pure_lookup st eid f _ _ name
    (mergeSummary_keys_nodup (hits.filterMap id))]
  cases hm : lookupKey (mergeSummary (hits.filterMap id)) name with
  | none => rfl
  | some row => cases st.secondary eid (mapSet f "ResourceName" name) <;> rfl

/-! The streaming max-by-key reduction of `GetSummary` (lines 155-177):
its loop invariant `MergedInv` and the resulting latest-event property. -/

theorem mergeStep_inv {pre : List Summary}
    {acc : List (String × CollectorsSummary)} {row : Summary}
    (h : MergedInv pre acc) : MergedInv (pre ++ [row]) (mergeStep acc row) := by
  obtain ⟨hpres, hrow⟩ := h
  cases hl : lookupKey acc row.ResourceName with
  | none =>
      simp only [mergeStep, hl]
      constructor
      · intro d hd
        rcases List.mem_append.mp hd with hd | hd
        · by_cases hdk : d.ResourceName = row.ResourceName
          · exact ⟨mergeRow row, by
              rw [hdk]; exact lookupKey_mapSet_self acc _ _⟩
          · obtain ⟨r, hr⟩ := hpres d hd
            exact ⟨r, by rw [lookupKey_mapSet_ne acc _ hdk]; exact hr⟩
        · rw [List.mem_singleton] at hd
          exact ⟨mergeRow row, by rw [hd]; exact lookupKey_mapSet_self acc _ _⟩
      · intro name r hr
        by_cases hnk : name = row.ResourceName
        · subst hnk
          rw [lookupKey_mapSet_self acc _ _] at hr
          cases hr
          refine ⟨rfl, rfl, rfl, row, List.mem_append_right _ (by simp),
            rfl, rfl, rfl, rfl, ?_⟩
          intro d2 hd2 hd2n
          rcases List.mem_append.mp hd2 with hd2 | hd2
          · obtain ⟨r2, hr2⟩ := hpres d2 hd2
            rw [hd2n] at hr2
            rw [hr2] at hl
            cases hl
          · rw [List.mem_singleton] at hd2; subst hd2
            exact le_refl _
        · rw [lookupKey_mapSet_ne acc _ hnk] at hr
          obtain ⟨hn, hts, hrc, d, hd, hdn, het, hst, hem, hbound⟩ :=
            hrow name r hr
          refine ⟨hn, hts, hrc, d, List.mem_append_left _ hd, hdn, het, hst,
            hem, ?_⟩
          intro d2 hd2 hd2n
          rcases List.mem_append.mp hd2 with hd2 | hd2
          · exact hbound d2 hd2 hd2n
          · rw [List.mem_singleton] at hd2; subst hd2
            exact absurd hd2n.symm hnk
  | some val =>
      by_cases hlt : row.EventTime < val.EventTime
      · simp only [mergeStep, hl, if_pos hlt]
        constructor
        · intro d hd
          rcases List.mem_append.mp hd with hd | hd
          · exact hpres d hd
          · rw [List.mem_singleton] at hd; subst hd
            exact ⟨val, hl⟩
        · intro name r hr
          obtain ⟨hn, hts, hrc, d, hd, hdn, het, hst, hem, hbound⟩ :=
            hrow name r hr
          refine ⟨hn, hts, hrc, d, List.mem_append_left _ hd, hdn, het, hst,
            hem, ?_⟩
          intro d2 hd2 hd2n
          rcases List.mem_append.mp hd2 with hd2 | hd2
          · exact hbound d2 hd2 hd2n
          · rw [List.mem_singleton] at hd2
            rw [hd2]
            rw [hd2] at hd2n
            rw [← hd2n] at hr
            rw [hl] at hr
            cases hr
            exact le_of_lt hlt
      · simp only [mergeStep, hl, if_neg hlt]
        have hge : val.EventTime ≤ row.EventTime := Int.not_lt.mp hlt
        constructor
        · intro d hd
          rcases List.mem_append.mp hd with hd | hd
          · by_cases hdk : d.ResourceName = row.ResourceName
            · exact ⟨mergeRow row, by
                rw [hdk]; exact lookupKey_mapSet_self _ _ _⟩
            · obtain ⟨r, hr⟩ := hpres d hd
              exact ⟨r, by
                rw [lookupKey_mapSet_ne _ _ hdk, lookupKey_eraseKey_ne _ hdk]
                exact hr⟩
          · rw [List.mem_singleton] at hd
            exact ⟨mergeRow row, by
              rw [hd]; exact lookupKey_mapSet_self _ _ _⟩
        · intro name r hr
          by_cases hnk : name = row.ResourceName
          · subst hnk
            rw [lookupKey_mapSet_self _ _ _] at hr
            cases hr
            refine ⟨rfl, rfl, rfl, row, List.mem_append_right _ (by simp),
              rfl, rfl, rfl, rfl, ?_⟩
            intro d2 hd2 hd2n
            rcases List.mem_append.mp hd2 with hd2 | hd2
            · obtain ⟨_, _, _, d3, hd3, hd3n, het3, _, _, hbound⟩ :=
                hrow row.ResourceName val hl
              exact le_trans (hbound d2 hd2 hd2n) hge
            · rw [List.mem_singleton] at hd2; subst hd2
              exact le_refl _
          · rw [lookupKey_mapSet_ne _ _ hnk, lookupKey_eraseKey_ne _ hnk] at hr
            obtain ⟨hn, hts, hrc, d, hd, hdn, het, hst, hem, hbound⟩ :=
              hrow name r hr
            refine ⟨hn, hts, hrc, d, List.mem_append_left _ hd, hdn, het, hst,
              hem, ?_⟩
            intro d2 hd2 hd2n
            rcases List.mem_append.mp hd2 with hd2 | hd2
            · exact hbound d2 hd2 hd2n
            · rw [List.mem_singleton] at hd2; subst hd2
              exact absurd hd2n.symm hnk

theorem mergeSummary_inv (rows : List Summary) :
    MergedInv rows (mergeSummary rows) := by
  have main : ∀ (rest pre : List Summary)
      (acc : List (String × CollectorsSummary)), MergedInv pre acc →
      MergedInv (pre ++ rest) (rest.foldl mergeStep acc) := by
    intro rest
    induction rest with
    | nil => intro pre acc h; simpa using h
    | cons r rs ih =>
        intro pre acc h
        have h2 := ih (pre ++ [r]) (mergeStep acc r) (mergeStep_inv h)
        rw [List.append_assoc] at h2
        simpa using h2
  have h0 : MergedInv [] [] := by
    constructor
    · intro d hd; cases hd
    · intro name row hr; cases hr
  simpa using main rows [] [] h0

/-! Ordering facts about the modelled store aggregation. -/

theorem mem_insertDescBy (key : String → Int) (x : String) :
    ∀ (l : List String) (y : String),
      y ∈ insertDescBy key x l ↔ y = x ∨ y ∈ l := by
  intro l
  induction l with
  | nil => intro y; simp [insertDescBy]
  | cons z zs ih =>
      intro y
      by_cases h : key z ≤ key x
      · simp [insertDescBy, h]
      · simp [insertDescBy, h, ih, or_left_comm]

theorem pairwise_insertDescBy (key : String → Int) (x : String) :
    ∀ (l : List String),
      List.Pairwise (fun a b => key b ≤ key a) l →
      List.Pairwise (fun a b => key b ≤ key a) (insertDescBy key x l) := by
  intro l
  induction l with
  | nil => intro _; simp [insertDescBy]
  | cons z zs ih =>
      intro hp
      rw [List.pairwise_cons] at hp
      obtain ⟨hz, hzs⟩ := hp
      by_cases h : key z ≤ key x
      · simp only [insertDescBy, if_pos h]
        refine List.Pairwise.cons ?_ (List.Pairwise.cons hz hzs)
        intro y hy
        rcases List.mem_cons.mp hy with hy | hy
        · rw [hy]; exact h
        · exact le_trans (hz y hy) h
      · simp only [insertDescBy, if_neg h]
        refine List.Pairwise.cons ?_ (ih hzs)
        intro y hy
        rcases (mem_insertDescBy key x zs y).mp hy with hy | hy
        · rw [hy]; exact le_of_not_le h
        · exact hz y hy

theorem sortDescBy_pairwise (key : String → Int) (l : List String) :
    List.Pairwise (fun a b => key b ≤ key a) (sortDescBy key l) := by
  induction l with
  | nil => simp [sortDescBy]
  | cons z zs ih =>
      show List.Pairwise _ (insertDescBy key z (sortDescBy key zs))
      exact pairwise_insertDescBy key z _ ih

/-- A decoded execution record's `ID` field is the identifier it was
decoded from. -/
theorem decodeExecutionID_id (s : String) (e : Executions)
    (h : decodeExecutionID s = some e) : e.ID = s := by
  simp only [decodeExecutionID] at h
  cases hp : parseInt64 (((splitUnderscore s.toList).getLast?).getD []) with
  | none => rw [hp] at h; cases h
  | some t => rw [hp] at h; cases h; rfl

theorem phase2Pure_congr (st : SummaryStore) (eid : String) (g f : Filters)
    (h : ∀ r, mapSet g "ResourceName" r = mapSet f "ResourceName" r) :
    ∀ (entries acc : List (String × CollectorsSummary)),
      phase2Pure st eid g entries acc = phase2Pure st eid f entries acc := by
  intro entries
  induction entries with
  | nil => intro acc; rfl
  | cons e es ih =>
      intro acc
      simp only [phase2Pure, h e.1]
      rw [ih]

theorem filtersAfter_filtersAfter (f : Filters)
    (es : List (String × CollectorsSummary)) :
    filtersAfter (filtersAfter f es) es = filtersAfter f es := by
  cases es with
  | nil => rfl
  | cons e es2 =>
      show filtersAfter
        (mapSet (filtersAfter f (e :: es2)) "ResourceName" e.1) es2 =
        filtersAfter (mapSet f "ResourceName" e.1) es2
      rw [mapSet_filtersAfter]

/-! The claim theorems. -/

/-- C1: for every set of status documents the store returns for one
execution id, every summary row `GetSummary` returns carries the
EventTime, Status and ErrorMessage of a returned document with that
resource name whose EventTime is maximal among the documents with that
name. -/
theorem getSummary_latest_event (st : SummaryStore) (eid : String)
    (f : Filters) (hits : List (Option Summary)) (name : String)
    (row : CollectorsSummary) (hprim : st.primary eid = .ok hits)
    (hrow : lookupKey (getSummaryRun st eid f).1 name = some row) :
    ∃ d ∈ hits.filterMap id, d.ResourceName = name ∧
      row.EventTime = d.EventTime ∧ row.Status = d.Data.Status ∧
      row.ErrorMessage = d.Data.ErrorMessage ∧
      ∀ d2 ∈ hits.filterMap id, d2.ResourceName = name →
        d2.EventTime ≤ d.EventTime := by
  rw [getSummary_result_lookup st eid f hits hprim name] at hrow
  cases hm : lookupKey (mergeSummary (hits.filterMap id)) name with
  | none => rw [hm] at hrow; cases hrow
  | some row0 =>
      rw [hm] at hrow
      obtain ⟨hn, hts, hrc, d, hd, hdn, het, hst, hem, hbound⟩ :=
        (mergeSummary_inv (hits.filterMap id)).2 name row0 hm
      have hfields : row.EventTime = row0.EventTime ∧
          row.Status = row0.Status ∧ row.ErrorMessage = row0.ErrorMessage := by
        cases hsec : st.secondary eid (mapSet f "ResourceName" name) with
        | error u => rw [hsec] at hrow; cases hrow; exact ⟨rfl, rfl, rfl⟩
        | ok resp => rw [hsec] at hrow; cases hrow; exact ⟨rfl, rfl, rfl⟩
      refine ⟨d, hd, hdn, ?_, ?_, ?_, ?_⟩
      · rw [hfields.1, het]
      · rw [hfields.2.1, hst]
      · rw [hfields.2.2, hem]
      · intro d2 hd2 hd2n
        have hb := hbound d2 hd2 hd2n
        rw [het] at hb
        exact hb

/-- C1 instance: with documents timed [10, 30, 20] for resource `r1`, the
returned row is the one from time 30 and that time is maximal. -/
theorem getSummary_latest_event_instance :
    lookupKey (getSummaryRun demoLatestStore "exec" []).1 "r1" =
      some demoLatestRow ∧
    ∃ d ∈ demoLatestHits.filterMap id, d.ResourceName = "r1" ∧
      demoLatestRow.EventTime = d.EventTime ∧
      demoLatestRow.Status = d.Data.Status ∧
      demoLatestRow.ErrorMessage = d.Data.ErrorMessage ∧
      ∀ d2 ∈ demoLatestHits.filterMap id, d2.ResourceName = "r1" →
        d2.EventTime ≤ d.EventTime :=
  ⟨by decide, getSummary_latest_event demoLatestStore "exec" [] demoLatestHits
    "r1" demoLatestRow rfl (by decide)⟩

/-- C2 counterexample: a store whose secondary aggregation value is
malformed does not make `GetSummary` fail — the call returns a nil error
and a populated summary with zero spend and the raw hit count. -/
theorem getSummary_malformed_agg_succeeds :
    (getSummaryRun demoMalformedStore "exec" []).2.2 = false ∧
    (getSummaryRun demoMalformedStore "exec" []).1 =
      [("r", ⟨"r", 1, "s", "m", 0, 4⟩)] := by decide

/-- C2 (amended): `GetSummary` fails, returning the empty mapping and the
untouched filters map, exactly when the primary status query fails;
malformed secondary aggregation data does not fail the call. -/
theorem getSummary_primary_error_fails (st : SummaryStore) (eid : String)
    (f : Filters) (h : st.primary eid = .error ()) :
    getSummaryRun st eid f = ([], f, true) := by
  simp only [getSummaryRun, h]

/-- C2 instance: a failing primary query yields the error return. -/
theorem getSummary_primary_error_fails_instance :
    getSummaryRun ⟨fun _ => .error (), fun _ _ => .ok ⟨none, 0⟩⟩ "exec"
      [("Resource", "ec2")] = ([], [("Resource", "ec2")], true) :=
  getSummary_primary_error_fails _ "exec" _ rfl

/-- C3: when the secondary cost query fails for resource name `n`, the
call still succeeds, the row for `n` keeps its zero cost and count, and
every resource whose secondary query succeeds gets its parsed cost and
count. -/
theorem getSummary_partial_secondary_failure (st : SummaryStore)
    (eid : String) (f : Filters) (hits : List (Option Summary)) (n : String)
    (hprim : st.primary eid = .ok hits)
    (herr : st.secondary eid (mapSet f "ResourceName" n) = .error ()) :
    (getSummaryRun st eid f).2.2 = false ∧
    (∀ rowN, lookupKey (mergeSummary (hits.filterMap id)) n = some rowN →
      lookupKey (getSummaryRun st eid f).1 n = some rowN ∧
      rowN.TotalSpent = 0 ∧ rowN.ResourceCount = 0) ∧
    (∀ m row resp,
      lookupKey (mergeSummary (hits.filterMap id)) m = some row →
      st.secondary eid (mapSet f "ResourceName" m) = .ok resp →
      lookupKey (getSummaryRun st eid f).1 m = some (updateRow row resp)) := by
  refine ⟨?_, ?_, ?_⟩
  · rw [getSummaryRun_ok st eid f hits hprim]
  · intro rowN hm
    have h1 := getSummary_result_lookup st eid f hits hprim n
    rw [hm, herr] at h1
    exact ⟨h1, ((mergeSummary_inv _).2 n rowN hm).2.1,
      ((mergeSummary_inv _).2 n rowN hm).2.2.1⟩
  · intro m row resp hm hsec
    have h1 := getSummary_result_lookup st eid f hits hprim m
    rw [hm, hsec] at h1
    exact h1

/-- C3 instance: against `demoPartialStore` the secondary query fails only
for `a`; the call succeeds, `a` keeps zero cost/count, and `b` gets its
parsed values. -/
theorem getSummary_partial_secondary_failure_instance :
    (getSummaryRun demoPartialStore "exec" []).2.2 = false ∧
    (∀ rowN,
      lookupKey (mergeSummary (demoPartialHits.filterMap id)) "a" = some rowN →
      lookupKey (getSummaryRun demoPartialStore "exec" []).1 "a" = some rowN ∧
      rowN.TotalSpent = 0 ∧ rowN.ResourceCount = 0) ∧
    (∀ m row resp,
      lookupKey (mergeSummary (demoPartialHits.filterMap id)) m = some row →
      demoPartialStore.secondary "exec" (mapSet [] "ResourceName" m) = .ok resp →
      lookupKey (getSummaryRun demoPartialStore "exec" []).1 m =
        some (updateRow row resp)) :=
  getSummary_partial_secondary_failure demoPartialStore "exec" []
    demoPartialHits "a" rfl rfl

/-- C4: when the aggregation query of `GetExecutions` fails, or the
`orderedExecutionID` key is absent from the response, the call returns the
empty list and a nil error. -/
theorem getExecutions_unavailable_empty (st : ExecsStore) (limit : Int)
    (h : st.search limit = .error () ∨ st.search limit = .ok none) :
    getExecutionsRun st limit = ([], false) := by
  rcases h with h | h <;> simp [getExecutionsRun, h]

/-- C4 instance: a failing aggregation query yields the empty, nil-error
return. -/
theorem getExecutions_unavailable_empty_instance :
    getExecutionsRun ⟨fun _ => .error ()⟩ 5 = ([], false) :=
  getExecutions_unavailable_empty _ 5 (Or.inl rfl)

/-- C5: identifier decomposition of `GetExecutions`:
`nightly-scan_1700000000` yields name `nightly-scan` and time 1700000000,
`a_b_c_42` yields `a_b_c` and 42, and `noTimestamp` is skipped without
failing the call. -/
theorem getExecutions_identifier_decomposition :
    getExecutionsRun
      ⟨fun _ => .ok (some
        [⟨some ["nightly-scan_1700000000", "a_b_c_42", "noTimestamp"]⟩])⟩ 10 =
      ([⟨"nightly-scan_1700000000", "nightly-scan", 1700000000⟩,
        ⟨"a_b_c_42", "a_b_c", 42⟩], false) := by decide

/-- C6: over the modelled store aggregation, `GetExecutions` returns at
most `n` records, in descending order of the maximum EventTime of the
`service_status` documents carrying each record's execution id. -/
theorem getExecutions_limit_and_order (docs : List Doc) (n : Nat) :
    ((getExecutionsRun
        ⟨fun l => .ok (some (esExecutionsResponse docs l.toNat))⟩
        (n : Int)).1).length ≤ n ∧
    List.Pairwise (fun a b => maxTimeOf docs b.ID ≤ maxTimeOf docs a.ID)
      ((getExecutionsRun
        ⟨fun l => .ok (some (esExecutionsResponse docs l.toNat))⟩
        (n : Int)).1) := by
  have hrun : (getExecutionsRun
      ⟨fun l => .ok (some (esExecutionsResponse docs l.toNat))⟩
      (n : Int)).1 =
      ((sortDescBy (maxTimeOf docs) (statusExecIDs docs)).take n).filterMap
        decodeExecutionID := by
    simp [getExecutionsRun, esExecutionsResponse]
  rw [hrun]
  constructor
  · exact le_trans (List.length_filterMap_le _ _) (List.length_take_le _ _)
  · have hsorted := sortDescBy_pairwise (maxTimeOf docs) (statusExecIDs docs)
    have htake := List.Pairwise.sublist (List.take_sublist n _) hsorted
    rw [List.pairwise_filterMap]
    refine htake.imp ?_
    intro a b hab x hx y hy
    rw [decodeExecutionID_id a x (Option.mem_def.mp hx),
      decodeExecutionID_id b y (Option.mem_def.mp hy)]
    exact hab

/-- C7 counterexample: a hit whose body fails to decode is not dropped by
`GetResources`: it contributes an empty field map, so the result is not
the list of successfully decoded documents. -/
theorem getResources_keeps_undecodable :
    (getResourcesRun ⟨fun _ _ => .ok [some [("k", "v")], none]⟩
      "ec2" "run_1").1 = [[("k", "v")], []] ∧
    [[("k", "v")], ([] : RawDoc)] ≠ [[("k", "v")]] := by decide

/-- C7 (amended): on a successful query, `GetResources` returns one entry
per hit — the decoded field map, or the empty map when decoding fails
(the failure is only logged) — and a nil error; a per-document decode
failure never fails the call. -/
theorem getResources_decode_failure_kept (st : ResourcesStore)
    (t eid : String) (hits : List (Option RawDoc))
    (h : st.search t eid = .ok hits) :
    getResourcesRun st t eid = (hits.map (fun hh => hh.getD []), false) := by
  simp only [getResourcesRun, h]

/-- C7 instance: two hits, the second undecodable, yield two entries, the
second empty, and a nil error. -/
theorem getResources_decode_failure_kept_instance :
    getResourcesRun ⟨fun _ _ => .ok [some [("k", "v")], none]⟩ "ec2" "run_1" =
      ([[("k", "v")], []], false) := by
  exact getResources_decode_failure_kept _ "ec2" "run_1"
    [some [("k", "v")], none] rfl

/-- C8 counterexample: for two documents with the same resource name and
equal event time 5, the merge keeps the second one (status `B`), so the
incumbent row is not kept unchanged on a tie. -/
theorem mergeSummary_tie_last_wins :
    lookupKey (mergeSummary
      [⟨"r", 5, ⟨"A", "ea"⟩⟩, ⟨"r", 5, ⟨"B", "eb"⟩⟩]) "r" =
      some ⟨"r", 5, "B", "eb", 0, 0⟩ ∧
    (⟨"r", 5, "B", "eb", 0, 0⟩ : CollectorsSummary) ≠
      ⟨"r", 5, "A", "ea", 0, 0⟩ := by decide

/-- C8 (amended): the incumbent row is kept only when its event time is
strictly greater than the new document's; when the new document's time is
greater or equal — ties included — the incumbent is deleted and replaced
by the new row (last-write-wins). -/
theorem mergeStep_replaces_on_ge (acc : List (String × CollectorsSummary))
    (row : Summary) (val : CollectorsSummary)
    (h : lookupKey acc row.ResourceName = some val) :
    (row.EventTime < val.EventTime → mergeStep acc row = acc) ∧
    (val.EventTime ≤ row.EventTime →
      mergeStep acc row =
        mapSet (eraseKey acc row.ResourceName) row.ResourceName
          (mergeRow row)) := by
  constructor
  · intro hlt; simp only [mergeStep, h, if_pos hlt]
  · intro hge; simp only [mergeStep, h, if_neg (Int.not_lt.mpr hge)]

/-- C8 instance: an equal-time document replaces the incumbent. -/
theorem mergeStep_replaces_on_ge_instance :
    mergeStep [("r", demoTieVal)] demoTieRow =
      mapSet (eraseKey [("r", demoTieVal)] "r") "r" (mergeRow demoTieRow) :=
  (mergeStep_replaces_on_ge [("r", demoTieVal)] demoTieRow demoTieVal
    rfl).2 (le_refl _)

/-- C9 counterexample: `GetSummary` writes the `ResourceName` key into the
caller's filters map — after a call with empty filters against a store
holding resource `r`, the map is no longer empty. -/
theorem getSummary_mutates_filters :
    (getSummaryRun demoMutationStore "exec" []).2.1 =
      [("ResourceName", "r")] ∧
    (getSummaryRun demoMutationStore "exec" []).2.1 ≠ [] := by decide

/-- C9 (amended): re-running `GetSummary` with the filters map left by a
first call (the map the caller now holds) yields the identical triple of
summary, filters and error, so repeated reads are stable even though the
filters argument is mutated. -/
theorem getSummary_repeat_stable (st : SummaryStore) (eid : String)
    (f : Filters) :
    getSummaryRun st eid ((getSummaryRun st eid f).2.1) =
      getSummaryRun st eid f := by
  cases hprim : st.primary eid with
  | error u =>
      cases u
      simp only [getSummaryRun, hprim]
  | ok hits =>
      have hf1 : (getSummaryRun st eid f).2.1 =
          filtersAfter f (mergeSummary (hits.filterMap id)) := by
        rw [getSummaryRun_ok st eid f hits hprim]
      rw [hf1, getSummaryRun_ok st eid _ hits hprim,
        getSummaryRun_ok st eid f hits hprim,
        phase2Pure_congr st eid _ f
          (fun r => mapSet_filtersAfter (mergeSummary (hits.filterMap id)) f r)
          _ _,
        filtersAfter_filtersAfter]

/-- C10: a single-segment identifier that parses as an integer is not
skipped: `1700000000` yields a record with empty name and that unix
time. -/
theorem getExecutions_numeric_single_segment :
    getExecutionsRun ⟨fun _ => .ok (some [⟨some ["1700000000"]⟩])⟩ 5 =
      ([⟨"1700000000", "", 1700000000⟩], false) := by decide

end Finala
